import Mathlib

/-!
Shallow embedding of `src/main.rs` of the `ifunny_scraper` repository.

The program scrapes a user's timeline page by page, extracts media links
from each page's HTML, deduplicates them with a seen-set and a duplicate-hit
counter, writes a manifest, and downloads each link (cropping 20 pixels off
the bottom of still images).

Modelling choices:
* A page's HTML is abstracted to the observable features the code reads:
  either an empty body (`Page.empty`, the rate-limit signal) or a list of
  direct children of `<body>` (`Page.body`).  Each child element
  (`ChildElem`) records the three observations the loop makes on it:
  the parsed `data-next` attribute, the result of the video-media selector
  (`none` = no match, `some a` = matched with optional `data-source`
  attribute `a`), and likewise for the image-media selector and `data-src`.
* `f64` cursor values are only parsed, stored and formatted into request
  URLs — never computed with — so they are modelled as exact rationals.
* `unix_secs()` is modelled as a clock `now : Nat → Rat` sampled at each
  page iteration (the code calls it once per page when the cursor is unset),
  and as a `Nat` parameter for `file_name`.
* Rust's `u32` subtraction `height - 20` is modelled by a checked
  subtraction returning `Option`: `none` models the arithmetic-overflow
  program error (panic in debug builds).
* The effectful loop of `get_links` is modelled as a fuel-indexed recursion
  returning the collected links (or the `RateLimited` error) together with
  the log of cursor values encoded in the page requests that were issued.
-/

namespace IFunny

/-- The sole domain error, `enum ScrapeError { RateLimited }`. -/
inductive ScrapeError where
  | RateLimited
deriving DecidableEq, Repr

/-- `enum IFunnyLink { Moving(String), Still(String) }`. -/
inductive IFunnyLink where
  | Moving (url : String)
  | Still (url : String)
deriving DecidableEq, Repr

/-- `IFunnyLink::url`. -/
def IFunnyLink.url : IFunnyLink → String
  | .Moving u => u
  | .Still u => u

/-- One direct child element of the page `<body>`, abstracted to the three
observations the scraping loop makes on it.  The fields record the
observations independently, but on a real page they are correlated: the
image selector `div > div.post__media > div > div > a > img` strictly
extends the video selector `div > div.post__media > div`, so within a
direct child of `body` (whose parent is `body`, not a `div`) any
image-selector match forces a video-selector match on a strict descendant
of the child.  Realizable observations therefore satisfy
`ChildElem.Realizable` below. -/
structure ChildElem where
  /-- `some c` iff the element has a `data-next` attribute that parses as a
  float, with parsed value `c`. -/
  dataNext : Option Rat
  /-- `some a` iff `elem.select(vid_media_selector).next()` is `Some(e)`;
  then `a` is `e.attr("data-source")`. -/
  vid : Option (Option String)
  /-- `some a` iff `elem.select(img_media_selector).next()` is `Some(e)`;
  then `a` is `e.attr("data-src")`. -/
  img : Option (Option String)
deriving DecidableEq, Repr

/-- A timeline page response: empty body (rate-limit signal) or the list of
direct children of `<body>` (a parsed document without a `<body>` match
behaves exactly like `body []`, as the loop over children is skipped). -/
inductive Page where
  | empty
  | body (elems : List ChildElem)
deriving DecidableEq, Repr

/-- Realizability of the selector observations on one child element: the
image-media selector can only match where the video-media selector also
matches, because its selector path strictly extends the video selector's
path inside the same subtree.  Every element arising from a parsed page
satisfies this. -/
def ChildElem.Realizable (e : ChildElem) : Prop :=
  e.img.isSome → e.vid.isSome

/-- The media extraction performed on one child element
(`main.rs` lines 210–246): the video selector is consulted first; only when
it matched an element *lacking* `data-source` is the image selector
consulted. -/
def extract (e : ChildElem) : Option IFunnyLink :=
  match e.vid with
  | some (some src) => some (IFunnyLink.Moving src)
  | some none =>
    match e.img with
    | some (some src) => some (IFunnyLink.Still src)
    | _ => none
  | none => none

/-- The mutable state of the collection loop: `seen_cache`,
`duplicate_hits`, `links`, `next_timestamp`. The `HashSet` is modelled as a
list used only through membership. -/
structure CState where
  seen : List String
  dups : Nat
  links : List IFunnyLink
  cursor : Option Rat
deriving DecidableEq, Repr

/-- The state at the start of a collection run. -/
def initState : CState :=
  { seen := [], dups := 0, links := [], cursor := none }

/-- The `data-next` update applied to the cursor by one element:
a parseable attribute overwrites, otherwise the cursor is kept. -/
def updC (e : ChildElem) (c : Option Rat) : Option Rat :=
  match e.dataNext with
  | some ts => some ts
  | none => c

/-- State after the `data-next` check on one element. -/
def updCursor (st : CState) (e : ChildElem) : CState :=
  { st with cursor := updC e st.cursor }

/-- Processing of one child element (`main.rs` lines 201–247):
the `data-next` cursor update, then media extraction and the deduplication
policy.  In the source the cursor update happens first; since it touches
only `next_timestamp`, the reads of `seen_cache`, `duplicate_hits` and
`links` below are taken on `st` directly.  `Sum.inr ls` models the early
`return Ok(links)` taken when the duplicate counter reaches 2. -/
def processElem (st : CState) (e : ChildElem) :
    Sum CState (List IFunnyLink) :=
  match extract e with
  | none => Sum.inl (updCursor st e)
  | some l =>
    if l.url ∈ st.seen then
      if st.dups + 1 ≥ 2 then Sum.inr st.links
      else Sum.inl { updCursor st e with dups := st.dups + 1 }
    else
      Sum.inl { updCursor st e with seen := l.url :: st.seen,
                                    links := st.links ++ [l] }

/-- Processing of all children of one page body, with early return. -/
def processElems (st : CState) :
    List ChildElem → Sum CState (List IFunnyLink)
  | [] => Sum.inl st
  | e :: es =>
    match processElem st e with
    | Sum.inl st1 => processElems st1 es
    | Sum.inr ls => Sum.inr ls

/-- Cursor value after all `data-next` updates of one page. -/
def pageCursor (elems : List ChildElem) (c : Option Rat) : Option Rat :=
  elems.foldl (fun c e => updC e c) c

/-- The page loop of `get_links` (`for page in 0..num_pages`), as a
fuel-indexed recursion.  `fetch` gives the response for each page index,
`now` is the clock sampled at each iteration (used when the cursor is
unset).  Returns the outcome together with the log of cursor values encoded
in the page requests issued, in request order. -/
def runPages (fetch : Nat → Page) (now : Nat → Rat) :
    Nat → Nat → CState → List Rat →
    Except ScrapeError (List IFunnyLink) × List Rat
  | 0, _, st, log => (Except.ok st.links, log)
  | fuel + 1, page, st, log =>
    match fetch page with
    | Page.empty =>
      (Except.error ScrapeError.RateLimited,
       log ++ [st.cursor.getD (now page)])
    | Page.body elems =>
      match processElems st elems with
      | Sum.inr ls => (Except.ok ls, log ++ [st.cursor.getD (now page)])
      | Sum.inl st1 =>
        runPages fetch now fuel (page + 1) st1
          (log ++ [st.cursor.getD (now page)])

/-- `get_links(client, username, num_pages, delay_ms)`: the whole
collection run, starting from the initial state at page 0. -/
def get_links (now : Nat → Rat) (numPages : Nat) (fetch : Nat → Page) :
    Except ScrapeError (List IFunnyLink) × List Rat :=
  runPages fetch now numPages 0 initState []

/-- Fetch function serving a fixed list of page bodies; pages beyond the
list have an empty child list (no media, no error). -/
def pageFetch (pages : List (List ChildElem)) (k : Nat) : Page :=
  Page.body (pages.getD k [])

/-- All references extracted from a list of pages, document order within
each page, concatenated in page order. -/
def pagesExtract (pages : List (List ChildElem)) : List IFunnyLink :=
  (pages.map (fun es => es.filterMap extract)).flatten

/-- `quick_save_links`: the manifest content written to `links.txt`. -/
def quick_save_links (links : List IFunnyLink) : String :=
  String.intercalate "\n" (links.map (fun l => l.url))

/-- Left-to-right segments of a character list split on `/`; the last
segment is the first item of Rust's `rsplitn(2, "/")`. -/
def segments : List Char → List (List Char)
  | [] => [[]]
  | c :: cs =>
    let rest := segments cs
    if c = '/' then [] :: rest
    else (c :: rest.headI) :: rest.tail

/-- `self.url().rsplitn(2, "/").next()`: the substring after the last `/`
(the whole string when there is no `/`). -/
def rsplitnNext (s : String) : Option String :=
  ((segments s.data).getLast?).map List.asString

/-- `IFunnyLink::file_name`, with `unix_secs()` passed in as `now`. -/
def file_name (now : Nat) (l : IFunnyLink) : String :=
  match rsplitnNext l.url with
  | some f => f
  | none => toString now

/-- An image, abstracted to its dimensions. -/
structure Img where
  width : Nat
  height : Nat
deriving DecidableEq, Repr

/-- The output encoding chosen by the downloader. -/
inductive ImgFormat where
  | jpeg
deriving DecidableEq, Repr

/-- Rust integer subtraction: defined only when it does not underflow
(underflow is an arithmetic-overflow program error). -/
def checkedSub (a b : Nat) : Option Nat :=
  if b ≤ a then some (a - b) else none

/-- `DynamicImage::crop_imm(x, y, w, h)`: the crop rectangle is clamped to
the image bounds (semantics of `image::imageops::crop_imm`). -/
def crop_imm (img : Img) (x y w h : Nat) : Img :=
  { width := min w (img.width - min x img.width),
    height := min h (img.height - min y img.height) }

/-- `download_ifunny_image`, abstracted to dimensions and output format:
decode, crop `(0, 0, width, height - 20)`, re-encode as JPEG.  `none`
models the underflow of `height - 20`. -/
def download_ifunny_image (img : Img) : Option (ImgFormat × Img) :=
  (checkedSub img.height 20).map
    fun h => (ImgFormat.jpeg, crop_imm img 0 0 img.width h)

/-! ### Basic lemmas about the embedded definitions -/

lemma segments_ne_nil (cs : List Char) : segments cs ≠ [] := by
  cases cs with
  | nil => simp [segments]
  | cons c cs =>
    simp only [segments]
    split <;> simp

lemma rsplitnNext_isSome (s : String) : (rsplitnNext s).isSome := by
  unfold rsplitnNext
  have h := segments_ne_nil s.data
  cases hL : (segments s.data).getLast? with
  | none => exact absurd (List.getLast?_eq_none_iff.mp hL) h
  | some f => simp

lemma segments_no_slash (cs : List Char) (h : '/' ∉ cs) :
    segments cs = [cs] := by
  induction cs with
  | nil => rfl
  | cons c cs ih =>
    simp only [List.mem_cons, not_or] at h
    have hc : ¬c = '/' := fun hc => h.1 hc.symm
    simp only [segments, if_neg hc, ih h.2, List.headI, List.tail]

lemma file_name_of_no_slash (now : Nat) (l : IFunnyLink)
    (h : '/' ∉ l.url.data) : file_name now l = l.url := by
  unfold file_name rsplitnNext
  rw [segments_no_slash _ h]
  simp [List.asString]

/-! ### Claims C6–C10 -/

/-- C6: on every realizable child element (an image-selector match entails
a video-selector match, `ChildElem.Realizable`), extraction follows the
claim: a video marker carrying a video-source attribute yields a `Moving`
reference with that URL; otherwise an image marker carrying an
image-source attribute yields a `Still` reference with that URL; when
neither nested structure is present the element yields no reference, and
likewise when no source attribute is found at all. -/
theorem C6_extract (e : ChildElem) (hr : e.Realizable) :
    (∀ s, e.vid = some (some s) →
       extract e = some (IFunnyLink.Moving s)) ∧
    ((∀ s, e.vid ≠ some (some s)) → ∀ t, e.img = some (some t) →
       extract e = some (IFunnyLink.Still t)) ∧
    (e.vid = none → e.img = none → extract e = none) ∧
    ((∀ s, e.vid ≠ some (some s)) → (∀ t, e.img ≠ some (some t)) →
       extract e = none) := by
  obtain ⟨dn, v, i⟩ := e
  refine ⟨?_, ?_, ?_, ?_⟩
  · intro s h
    cases h
    rfl
  · intro hv t hi
    cases hi
    cases v with
    | none => exact absurd (hr rfl) (by simp)
    | some a =>
      cases a with
      | none => rfl
      | some s => exact absurd rfl (hv s)
  · intro hv _
    cases hv
    rfl
  · intro hv hi
    cases v with
    | none => rfl
    | some a =>
      cases a with
      | none =>
        cases i with
        | none => rfl
        | some b =>
          cases b with
          | none => rfl
          | some t => exact absurd rfl (hi t)
      | some s => exact absurd rfl (hv s)

/-- C6 witness: the characterisation applied to concrete realizable
elements — a video post, an image post (video marker present without
`data-source`), and an element with neither marker. -/
theorem C6_extract_witness :
    extract ⟨none, some (some "V"), none⟩ = some (IFunnyLink.Moving "V") ∧
    extract ⟨none, some none, some (some "I")⟩ =
      some (IFunnyLink.Still "I") ∧
    extract ⟨none, none, none⟩ = none :=
  ⟨(C6_extract ⟨none, some (some "V"), none⟩
      (by intro h; simp at h)).1 "V" rfl,
   (C6_extract ⟨none, some none, some (some "I")⟩ (fun _ => rfl)).2.1
     (by intro s h; simp at h) "I" rfl,
   (C6_extract ⟨none, none, none⟩ (by intro h; simp at h)).2.2.1 rfl rfl⟩

/-- C7 counterexample: on a URL containing no `/`, `file_name` returns the
URL itself, never the Unix-time fallback: `rsplitn(2, "/").next()` is
`Some` for every string, so the fallback branch is unreachable.  With the
clock at 1234 the claim demands the numeric string `"1234"`; the code
returns `"abc"`. -/
theorem C7_file_name_counterexample :
    file_name 1234 (IFunnyLink.Still "abc") = "abc" ∧
    "abc" ≠ "1234" := by
  constructor
  · rfl
  · decide

/-- C7 (amended): `file_name` returns the last path segment of the URL
(the rightmost segment when split on `/`); its result never depends on the
current time, and on a URL containing no `/` it returns the whole URL
(the unix-time fallback is dead code). -/
theorem C7_file_name :
    (∀ (now now1 : Nat) (l : IFunnyLink),
       file_name now l = file_name now1 l) ∧
    (∀ (now : Nat) (l : IFunnyLink), '/' ∉ l.url.data →
       file_name now l = l.url) ∧
    file_name 0 (IFunnyLink.Still "https://x.co/a/b/file123.jpg") =
      "file123.jpg" := by
  refine ⟨?_, ?_, ?_⟩
  · intro now now1 l
    unfold file_name
    have h := rsplitnNext_isSome l.url
    cases hr : rsplitnNext l.url with
    | none => rw [hr] at h; simp at h
    | some f => rfl
  · exact fun now l h => file_name_of_no_slash now l h
  · rfl

/-- C7 witness: time-independence and the no-slash case at concrete
inputs. -/
theorem C7_file_name_witness :
    file_name 7 (IFunnyLink.Moving "x/y.mp4") =
      file_name 99 (IFunnyLink.Moving "x/y.mp4") ∧
    file_name 7 (IFunnyLink.Moving "plain") = "plain" :=
  ⟨C7_file_name.1 7 99 (IFunnyLink.Moving "plain/y.mp4") ▸
     C7_file_name.1 7 99 (IFunnyLink.Moving "x/y.mp4"),
   C7_file_name.2.1 7 (IFunnyLink.Moving "plain") (by decide)⟩

/-- C8: whenever downloading a `Still` reference succeeds, the written
output is JPEG-encoded, its width equals the source image's width, and its
height equals the source image's height minus 20. -/
theorem C8_still_crop (img : Img) (out : ImgFormat × Img)
    (h : download_ifunny_image img = some out) :
    out.1 = ImgFormat.jpeg ∧ out.2.width = img.width ∧
    out.2.height = img.height - 20 := by
  unfold download_ifunny_image checkedSub at h
  by_cases h20 : 20 ≤ img.height
  · rw [if_pos h20] at h
    simp only [Option.map_some', Option.some.injEq] at h
    subst h
    refine ⟨rfl, ?_, ?_⟩
    · simp only [crop_imm]
      omega
    · simp only [crop_imm]
      omega
  · rw [if_neg h20] at h
    simp at h

/-- C8 witness: a 100 × 120 source image downloads to a 100 × 100 JPEG. -/
theorem C8_still_crop_witness :
    (ImgFormat.jpeg, Img.mk 100 100).1 = ImgFormat.jpeg ∧
    (ImgFormat.jpeg, Img.mk 100 100).2.width = (Img.mk 100 120).width ∧
    (ImgFormat.jpeg, Img.mk 100 100).2.height =
      (Img.mk 100 120).height - 20 :=
  C8_still_crop (Img.mk 100 120) (ImgFormat.jpeg, Img.mk 100 100) rfl

/-- C9: the manifest content is the newline-joined URL list of the
collected references, in exactly collection order, and depends only on the
URLs (not on whether each reference is `Moving` or `Still`). -/
theorem C9_manifest (links links1 : List IFunnyLink)
    (h : links.map IFunnyLink.url = links1.map IFunnyLink.url) :
    quick_save_links links =
      String.intercalate "\n" (links.map IFunnyLink.url) ∧
    quick_save_links links = quick_save_links links1 := by
  constructor
  · rfl
  · unfold quick_save_links
    rw [h]

/-- C9 witness: a mixed list and the list with its kinds flipped produce
the same manifest text. -/
theorem C9_manifest_witness :
    quick_save_links [IFunnyLink.Moving "u1", IFunnyLink.Still "u2"] =
      String.intercalate "\n"
        ([IFunnyLink.Moving "u1", IFunnyLink.Still "u2"].map
          IFunnyLink.url) ∧
    quick_save_links [IFunnyLink.Moving "u1", IFunnyLink.Still "u2"] =
      quick_save_links [IFunnyLink.Still "u1", IFunnyLink.Moving "u2"] :=
  C9_manifest [IFunnyLink.Moving "u1", IFunnyLink.Still "u2"]
    [IFunnyLink.Still "u1", IFunnyLink.Moving "u2"] rfl

/-- C10: the image download's crop has the unstated precondition
`height ≥ 20`: for every decoded image of height strictly below 20 the
unguarded subtraction `height - 20` underflows and the operation is
undefined (`none`), while for height at least 20 it is defined. -/
theorem C10_crop_underflow :
    (∀ img : Img, img.height < 20 → download_ifunny_image img = none) ∧
    (∀ img : Img, 20 ≤ img.height →
       (download_ifunny_image img).isSome) := by
  constructor
  · intro img h
    unfold download_ifunny_image checkedSub
    rw [if_neg (by omega)]
    rfl
  · intro img h
    unfold download_ifunny_image checkedSub
    rw [if_pos h]
    rfl

/-- C10 witness: a 50 × 19 image is rejected, a 50 × 20 image is
cropped. -/
theorem C10_crop_underflow_witness :
    download_ifunny_image (Img.mk 50 19) = none ∧
    (download_ifunny_image (Img.mk 50 20)).isSome :=
  ⟨C10_crop_underflow.1 (Img.mk 50 19) (by decide),
   C10_crop_underflow.2 (Img.mk 50 20) (by decide)⟩

/-! ### Lemmas about the collection loop -/

/-- A child element yielding a `Moving` reference with URL `s`. -/
def elemV (s : String) : ChildElem :=
  ⟨none, some (some s), none⟩

lemma processElem_inl_cursor (st : CState) (e : ChildElem) (st1 : CState)
    (h : processElem st e = Sum.inl st1) :
    st1.cursor = updC e st.cursor := by
  unfold processElem at h
  split at h
  · cases h; rfl
  · split at h
    · split at h
      · exact Sum.noConfusion h
      · cases h; rfl
    · cases h; rfl

lemma processElems_cons (st : CState) (e : ChildElem)
    (es : List ChildElem) :
    processElems st (e :: es) =
      match processElem st e with
      | Sum.inl st1 => processElems st1 es
      | Sum.inr ls => Sum.inr ls := rfl

lemma runPages_log_prefix (fetch : Nat → Page) (now : Nat → Rat) :
    ∀ (fuel page : Nat) (st : CState) (log : List Rat),
      ∃ rest, (runPages fetch now fuel page st log).2 = log ++ rest := by
  intro fuel
  induction fuel with
  | zero =>
    intro page st log
    exact ⟨[], by simp [runPages]⟩
  | succ n ih =>
    intro page st log
    cases hf : fetch page with
    | empty =>
      refine ⟨[st.cursor.getD (now page)], ?_⟩
      simp only [runPages, hf]
    | body elems =>
      cases hp : processElems st elems with
      | inr ls =>
        refine ⟨[st.cursor.getD (now page)], ?_⟩
        simp only [runPages, hf, hp]
      | inl st1 =>
        obtain ⟨rest, hrest⟩ :=
          ih (page + 1) st1 (log ++ [st.cursor.getD (now page)])
        refine ⟨st.cursor.getD (now page) :: rest, ?_⟩
        simp only [runPages, hf, hp]
        rw [hrest, List.append_assoc]
        rfl

/-! ### Claims C1–C5 about the collection loop -/

/-- C1: the deduplication policy of one collection run.  For an extracted
URL already in the seen-set the duplicate counter is incremented; when it
reaches 2 the run stops at once, returning, as an `Except.ok` success,
exactly the links gathered so far; an extracted URL not yet seen is added
to the set and its reference appended; the counter never decreases (it is
never reset) across any surviving step. -/
theorem C1_dedup_policy :
    (∀ (st : CState) (e : ChildElem) (l : IFunnyLink),
       extract e = some l → l.url ∈ st.seen → st.dups + 1 ≥ 2 →
       processElem st e = Sum.inr st.links) ∧
    (∀ (st : CState) (e : ChildElem) (l : IFunnyLink),
       extract e = some l → l.url ∈ st.seen → st.dups + 1 < 2 →
       processElem st e =
         Sum.inl { updCursor st e with dups := st.dups + 1 }) ∧
    (∀ (st : CState) (e : ChildElem) (l : IFunnyLink),
       extract e = some l → l.url ∉ st.seen →
       processElem st e =
         Sum.inl { updCursor st e with seen := l.url :: st.seen,
                                       links := st.links ++ [l] }) ∧
    (∀ (st : CState) (e : ChildElem) (st1 : CState),
       processElem st e = Sum.inl st1 → st.dups ≤ st1.dups) ∧
    (∀ (fetch : Nat → Page) (now : Nat → Rat) (fuel page : Nat)
       (st : CState) (log : List Rat) (elems : List ChildElem)
       (ls : List IFunnyLink),
       fetch page = Page.body elems → processElems st elems = Sum.inr ls →
       runPages fetch now (fuel + 1) page st log =
         (Except.ok ls, log ++ [st.cursor.getD (now page)])) := by
  refine ⟨?_, ?_, ?_, ?_, ?_⟩
  · intro st e l hx hm h2
    simp only [processElem, hx]
    rw [if_pos hm, if_pos h2]
  · intro st e l hx hm h2
    simp only [processElem, hx]
    rw [if_pos hm, if_neg (by omega)]
  · intro st e l hx hm
    simp only [processElem, hx]
    rw [if_neg hm]
  · intro st e st1 h
    unfold processElem at h
    split at h
    · cases h; exact Nat.le_refl _
    · split at h
      · split at h
        · exact Sum.noConfusion h
        · cases h; exact Nat.le_succ _
      · cases h; exact Nat.le_refl _
  · intro fetch now fuel page st log elems ls hf hp
    simp only [runPages, hf, hp]

/-- C1 witness: with `"A"` already seen and one prior duplicate hit, a
second extraction of `"A"` stops the run with the links gathered so far;
a fresh URL is recorded. -/
theorem C1_dedup_policy_witness :
    processElem ⟨["A"], 1, [IFunnyLink.Moving "A"], none⟩ (elemV "A") =
      Sum.inr [IFunnyLink.Moving "A"] ∧
    processElem ⟨["B"], 0, [], none⟩ (elemV "A") =
      Sum.inl ⟨["A", "B"], 0, [IFunnyLink.Moving "A"], none⟩ ∧
    processElem ⟨["A"], 0, [IFunnyLink.Moving "A"], none⟩ (elemV "A") =
      Sum.inl ⟨["A"], 1, [IFunnyLink.Moving "A"], none⟩ :=
  ⟨C1_dedup_policy.1 ⟨["A"], 1, [IFunnyLink.Moving "A"], none⟩
     (elemV "A") (IFunnyLink.Moving "A") rfl (by decide) (by decide),
   C1_dedup_policy.2.2.1 ⟨["B"], 0, [], none⟩
     (elemV "A") (IFunnyLink.Moving "A") rfl (by decide),
   C1_dedup_policy.2.1 ⟨["A"], 0, [IFunnyLink.Moving "A"], none⟩
     (elemV "A") (IFunnyLink.Moving "A") rfl (by decide) (by decide)⟩

/-- C2 counterexample: pages yielding URLs `[A]` then `[A, B]`.  `A` is
extracted twice, but the second occurrence is only the *first* duplicate
hit, so collection does not stop there: `B` is still collected and the run
returns `[A, B]`, not the `[A]` gathered strictly before the second
occurrence. -/
theorem C2_stop_counterexample :
    (get_links (fun _ => 0) 2
        (pageFetch [[elemV "A"], [elemV "A", elemV "B"]])).1 =
      Except.ok [IFunnyLink.Moving "A", IFunnyLink.Moving "B"] ∧
    (Except.ok [IFunnyLink.Moving "A", IFunnyLink.Moving "B"] :
        Except ScrapeError (List IFunnyLink)) ≠
      Except.ok [IFunnyLink.Moving "A"] := by
  constructor
  · rfl
  · simp

/-- C2 (amended): collection stops immediately at the second duplicate
*hit* of the whole run — the counter counts duplicate extractions of any
URLs, so one URL extracted twice is only the first hit and does not stop
the run.  On pages `[A, B, C]` then `[D, A]` the result is
`[A, B, C, D]` (as the claim's example says, the run surviving the second
`A`). -/
theorem C2_second_dup_hit :
    (∀ (st : CState) (e : ChildElem) (l : IFunnyLink),
       extract e = some l → l.url ∈ st.seen → st.dups = 1 →
       processElem st e = Sum.inr st.links) ∧
    (∀ (st : CState) (e : ChildElem) (l : IFunnyLink),
       extract e = some l → l.url ∈ st.seen → st.dups = 0 →
       processElem st e = Sum.inl { updCursor st e with dups := 1 }) ∧
    (get_links (fun _ => 0) 2
        (pageFetch [[elemV "A", elemV "B", elemV "C"],
                    [elemV "D", elemV "A"]])).1 =
      Except.ok [IFunnyLink.Moving "A", IFunnyLink.Moving "B",
                 IFunnyLink.Moving "C", IFunnyLink.Moving "D"] := by
  refine ⟨?_, ?_, ?_⟩
  · intro st e l hx hm h1
    simp only [processElem, hx]
    rw [if_pos hm, if_pos (by omega)]
  · intro st e l hx hm h0
    simp only [processElem, hx]
    rw [if_pos hm, if_neg (by omega), h0]
  · rfl

/-- C2 amended-claim witness: the stop and no-stop steps at concrete
states. -/
theorem C2_second_dup_hit_witness :
    processElem ⟨["A", "D"], 1, [IFunnyLink.Moving "D"], none⟩
      (elemV "A") = Sum.inr [IFunnyLink.Moving "D"] ∧
    processElem ⟨["A"], 0, [IFunnyLink.Moving "A"], some 3⟩ (elemV "A") =
      Sum.inl ⟨["A"], 1, [IFunnyLink.Moving "A"], some 3⟩ :=
  ⟨C2_second_dup_hit.1 ⟨["A", "D"], 1, [IFunnyLink.Moving "D"], none⟩
     (elemV "A") (IFunnyLink.Moving "A") rfl (by decide) rfl,
   C2_second_dup_hit.2.1 ⟨["A"], 0, [IFunnyLink.Moving "A"], some 3⟩
     (elemV "A") (IFunnyLink.Moving "A") rfl (by decide) rfl⟩

lemma runPages_rateLimited (fetch : Nat → Page) (now : Nat → Rat)
    (fuel page : Nat) (st : CState) (log : List Rat)
    (hf : fetch page = Page.empty) :
    runPages fetch now (fuel + 1) page st log =
      (Except.error ScrapeError.RateLimited,
       log ++ [st.cursor.getD (now page)]) := by
  unfold runPages
  rw [hf]

/-- C3: a page fetch answered with an empty body makes the run fail at
once with `RateLimited`: the request log ends exactly at the failing
request (no further page requests) and the error result carries none of
the already-collected references.  In particular a whole run whose first
page is empty performs exactly one request and fails. -/
theorem C3_rate_limited :
    (∀ (fetch : Nat → Page) (now : Nat → Rat) (fuel page : Nat)
       (st : CState) (log : List Rat),
       fetch page = Page.empty →
       runPages fetch now (fuel + 1) page st log =
         (Except.error ScrapeError.RateLimited,
          log ++ [st.cursor.getD (now page)])) ∧
    (∀ (now : Nat → Rat) (n : Nat) (fetch : Nat → Page),
       fetch 0 = Page.empty →
       get_links now (n + 1) fetch =
         (Except.error ScrapeError.RateLimited, [now 0])) := by
  constructor
  · exact runPages_rateLimited
  · intro now n fetch hf
    unfold get_links
    have h := runPages_rateLimited fetch now n 0 initState [] hf
    simpa [initState] using h

/-- C3 witness: a run of three pages whose first response is empty fails
with `RateLimited` after a single request. -/
theorem C3_rate_limited_witness :
    get_links (fun _ => 5) 3 (fun _ => Page.empty) =
      (Except.error ScrapeError.RateLimited, [5]) :=
  C3_rate_limited.2 (fun _ => 5) 2 (fun _ => Page.empty) rfl

lemma pageCursor_eq_getLast (elems : List ChildElem) :
    ∀ c0 : Option Rat,
      pageCursor elems c0 =
        ((elems.filterMap ChildElem.dataNext).getLast?).elim c0 some := by
  induction elems with
  | nil => intro c0; rfl
  | cons e es ih =>
    intro c0
    have hstep : pageCursor (e :: es) c0 = pageCursor es (updC e c0) := rfl
    rw [hstep, ih]
    cases hd : e.dataNext with
    | none =>
      simp only [List.filterMap_cons, hd, updC]
    | some v =>
      simp only [List.filterMap_cons, hd, updC]
      cases hL : es.filterMap ChildElem.dataNext with
      | nil => rfl
      | cons x xs =>
        rw [List.getLast?_cons_cons]
        obtain ⟨y, hy⟩ := Option.isSome_iff_exists.mp
          (List.getLast?_isSome.mpr (List.cons_ne_nil x xs))
        rw [hy]
        rfl

lemma processElems_inl_cursor (elems : List ChildElem) :
    ∀ (st st1 : CState), processElems st elems = Sum.inl st1 →
      st1.cursor = pageCursor elems st.cursor := by
  induction elems with
  | nil =>
    intro st st1 h
    cases h
    rfl
  | cons e es ih =>
    intro st st1 h
    unfold processElems at h
    cases hpe : processElem st e with
    | inl st2 =>
      simp only [hpe] at h
      rw [ih st2 st1 h, processElem_inl_cursor st e st2 hpe]
      rfl
    | inr ls =>
      simp only [hpe] at h
      exact Sum.noConfusion h

lemma pageCursor_isSome (elems : List ChildElem) (c0 : Option Rat)
    (h : c0.isSome) : (pageCursor elems c0).isSome := by
  rw [pageCursor_eq_getLast]
  cases hL : (elems.filterMap ChildElem.dataNext).getLast? with
  | none => simpa using h
  | some v => simp

lemma runPages_request_cursor (fetch : Nat → Page) (now : Nat → Rat)
    (fuel page : Nat) (st : CState) (log : List Rat) :
    ∃ rest, (runPages fetch now (fuel + 1) page st log).2 =
      log ++ (st.cursor.getD (now page)) :: rest := by
  cases hf : fetch page with
  | empty => exact ⟨[], by simp only [runPages, hf]⟩
  | body elems =>
    cases hp : processElems st elems with
    | inr ls => exact ⟨[], by simp only [runPages, hf, hp]⟩
    | inl st1 =>
      obtain ⟨rest, hrest⟩ := runPages_log_prefix fetch now fuel
        (page + 1) st1 (log ++ [st.cursor.getD (now page)])
      refine ⟨rest, ?_⟩
      simp only [runPages, hf, hp]
      rw [hrest, List.append_assoc]
      rfl

/-- C5: the cursor policy.  The cursor starts unset; one page's updates
make the last float-parseable `data-next` value win (falling back to the
incoming cursor when the page has none); a page that leaves the loop in a
continuing state leaves the cursor equal to that fold; a set cursor is
never reset to unset; the first page request of a run encodes the current
Unix time; every page request encodes the current cursor value, with the
clock only as the unset default; and on the concrete run whose first page
carries
`data-next = 1000` the second request encodes `1000` instead of the
default clock value `555`. -/
theorem C5_cursor_policy :
    initState.cursor = none ∧
    (∀ (elems : List ChildElem) (c0 : Option Rat),
       pageCursor elems c0 =
         ((elems.filterMap ChildElem.dataNext).getLast?).elim c0 some) ∧
    (∀ (st : CState) (elems : List ChildElem) (st1 : CState),
       processElems st elems = Sum.inl st1 →
       st1.cursor = pageCursor elems st.cursor) ∧
    (∀ (elems : List ChildElem) (c0 : Option Rat),
       c0.isSome → (pageCursor elems c0).isSome) ∧
    (∀ (now : Nat → Rat) (n : Nat) (fetch : Nat → Page),
       (get_links now (n + 1) fetch).2.head? = some (now 0)) ∧
    (∀ (fetch : Nat → Page) (now : Nat → Rat) (fuel page : Nat)
       (st : CState) (log : List Rat),
       ∃ rest, (runPages fetch now (fuel + 1) page st log).2 =
         log ++ (st.cursor.getD (now page)) :: rest) ∧
    (get_links (fun _ => 555) 2
        (pageFetch [[⟨some 1000, none, none⟩], []])).2 = [555, 1000] := by
  refine ⟨rfl, pageCursor_eq_getLast, ?_, pageCursor_isSome, ?_,
    runPages_request_cursor, rfl⟩
  · intro st elems st1 h
    exact processElems_inl_cursor elems st st1 h
  · intro now n fetch
    obtain ⟨rest, h⟩ := runPages_request_cursor fetch now n 0 initState []
    unfold get_links
    rw [h]
    rfl

/-- C5 witness: the cursor conjuncts evaluated at concrete inputs — a
one-element page carrying `data-next = 7`, a set cursor surviving an empty
page, and a one-page run requesting with the default clock value 9. -/
theorem C5_cursor_policy_witness :
    pageCursor [⟨some 7, none, none⟩] none =
      (([⟨some 7, none, none⟩].filterMap
          ChildElem.dataNext).getLast?).elim none some ∧
    (CState.mk [] 0 [] (some 7)).cursor =
      pageCursor [⟨some 7, none, none⟩] initState.cursor ∧
    (pageCursor [] (some 5)).isSome ∧
    (get_links (fun _ => 9) 1 (fun _ => Page.empty)).2.head? = some 9 :=
  ⟨C5_cursor_policy.2.1 [⟨some 7, none, none⟩] none,
   C5_cursor_policy.2.2.1 initState [⟨some 7, none, none⟩]
     (CState.mk [] 0 [] (some 7)) rfl,
   C5_cursor_policy.2.2.2.1 [] (some 5) rfl,
   C5_cursor_policy.2.2.2.2.1 (fun _ => 9) 0 (fun _ => Page.empty)⟩

lemma processElems_clean (elems : List ChildElem) :
    ∀ st : CState,
      ((elems.filterMap extract).map IFunnyLink.url).Nodup →
      (∀ u ∈ (elems.filterMap extract).map IFunnyLink.url, u ∉ st.seen) →
      processElems st elems = Sum.inl
        { seen := ((elems.filterMap extract).map
                    IFunnyLink.url).reverse ++ st.seen,
          dups := st.dups,
          links := st.links ++ elems.filterMap extract,
          cursor := pageCursor elems st.cursor } := by
  induction elems with
  | nil =>
    intro st _ _
    simp only [processElems, List.filterMap_nil, List.map_nil,
      List.reverse_nil, List.nil_append, List.append_nil, pageCursor,
      List.foldl_nil]
  | cons e es ih =>
    intro st hnd hdisj
    cases hx : extract e with
    | none =>
      have hfm : (e :: es).filterMap extract = es.filterMap extract := by
        simp [List.filterMap_cons, hx]
      rw [hfm] at hnd hdisj ⊢
      have hpe : processElem st e = Sum.inl (updCursor st e) := by
        simp only [processElem, hx]
      unfold processElems
      simp only [hpe]
      rw [ih (updCursor st e) hnd hdisj]
      rfl
    | some l =>
      have hfm : (e :: es).filterMap extract =
          l :: es.filterMap extract := by
        simp [List.filterMap_cons, hx]
      rw [hfm] at hnd hdisj ⊢
      rw [List.map_cons] at hnd hdisj
      obtain ⟨hnd1, hnd2⟩ := List.nodup_cons.mp hnd
      have hd : l.url ∉ st.seen :=
        hdisj l.url (List.mem_cons_self _ _)
      have hpe : processElem st e =
          Sum.inl { updCursor st e with seen := l.url :: st.seen,
                                        links := st.links ++ [l] } := by
        simp only [processElem, hx]
        rw [if_neg hd]
      unfold processElems
      simp only [hpe]
      rw [ih { updCursor st e with seen := l.url :: st.seen,
                                   links := st.links ++ [l] } hnd2
        (fun u hu hmem => by
          rcases List.mem_cons.mp hmem with h1 | h2
          · exact hnd1 (h1 ▸ hu)
          · exact hdisj u (List.mem_cons_of_mem _ hu) h2)]
      simp only [Sum.inl.injEq, CState.mk.injEq]
      refine ⟨?_, rfl, ?_, rfl⟩
      · simp [List.reverse_cons, List.append_assoc]
      · simp [List.append_assoc]

lemma runPages_nilTail (fetch : Nat → Page) (now : Nat → Rat) :
    ∀ (m page : Nat) (st : CState) (log : List Rat),
      (∀ k, fetch (page + k) = Page.body []) →
      (runPages fetch now m page st log).1 = Except.ok st.links := by
  intro m
  induction m with
  | zero => intro page st log _; rfl
  | succ n ih =>
    intro page st log h
    have h0 : fetch page = Page.body [] := h 0
    simp only [runPages, h0, processElems]
    exact ih (page + 1) st _ (fun k => by
      have hk := h (k + 1)
      rwa [show page + (k + 1) = page + 1 + k by omega] at hk)

lemma runPages_clean :
    ∀ (n : Nat) (pages : List (List ChildElem)) (fetch : Nat → Page)
      (now : Nat → Rat) (page : Nat) (st : CState) (log : List Rat),
      pages.length ≤ n →
      ((pagesExtract pages).map IFunnyLink.url).Nodup →
      (∀ u ∈ (pagesExtract pages).map IFunnyLink.url, u ∉ st.seen) →
      (∀ k, fetch (page + k) = Page.body (pages.getD k [])) →
      (runPages fetch now n page st log).1 =
        Except.ok (st.links ++ pagesExtract pages) := by
  intro n
  induction n with
  | zero =>
    intro pages fetch now page st log hn _ _ _
    have hpn : pages = [] := List.length_eq_zero.mp (Nat.le_zero.mp hn)
    subst hpn
    simp [runPages, pagesExtract]
  | succ n ih =>
    intro pages fetch now page st log hn hnd hdisj hfetch
    cases pages with
    | nil =>
      have h := runPages_nilTail fetch now (n + 1) page st log
        (fun k => by simpa using hfetch k)
      rw [h]
      simp [pagesExtract]
    | cons p ps =>
      have hf0 : fetch page = Page.body p := by
        have h := hfetch 0
        simpa using h
      have hfm : pagesExtract (p :: ps) =
          p.filterMap extract ++ pagesExtract ps := by
        simp [pagesExtract]
      rw [hfm] at hnd hdisj ⊢
      rw [List.map_append] at hnd hdisj
      obtain ⟨hnd1, hnd2, hdj⟩ := List.nodup_append.mp hnd
      have hstep := processElems_clean p st hnd1
        (fun u hu => hdisj u (List.mem_append_left _ hu))
      simp only [runPages, hf0, hstep]
      rw [ih ps fetch now (page + 1)
        { seen := ((p.filterMap extract).map
                    IFunnyLink.url).reverse ++ st.seen,
          dups := st.dups,
          links := st.links ++ p.filterMap extract,
          cursor := pageCursor p st.cursor }
        (log ++ [st.cursor.getD (now page)])
        (by simp only [List.length_cons] at hn; omega)
        hnd2
        (fun u hu hmem => by
          rcases List.mem_append.mp hmem with h1 | h2
          · exact hdj (List.mem_reverse.mp h1) hu
          · exact hdisj u (List.mem_append_right _ hu) h2)
        (fun k => by
          have hk := hfetch (k + 1)
          rwa [show page + (k + 1) = page + 1 + k by omega] at hk)]
      simp [List.append_assoc]

/-- C4: on a run over at most `maxPages` pages whose extracted URLs
contain no repeats, `get_links` succeeds with exactly one reference per
extracted element, in document order within each page, concatenated in
page order. -/
theorem C4_no_repeats (now : Nat → Rat) (n : Nat)
    (pages : List (List ChildElem)) (hn : pages.length ≤ n)
    (hnd : ((pagesExtract pages).map IFunnyLink.url).Nodup) :
    (get_links now n (pageFetch pages)).1 =
      Except.ok (pagesExtract pages) := by
  unfold get_links
  have h := runPages_clean n pages (pageFetch pages) now 0 initState []
    hn hnd (by intro u _ hmem; simp [initState] at hmem)
    (by intro k; simp [pageFetch])
  simpa [initState] using h

/-- C4 witness: two one-element pages with distinct URLs collect into the
two-element reference list in page order. -/
theorem C4_no_repeats_witness :
    (get_links (fun _ => 0) 5
        (pageFetch [[elemV "A"], [elemV "B"]])).1 =
      Except.ok (pagesExtract [[elemV "A"], [elemV "B"]]) :=
  C4_no_repeats (fun _ => 0) 5 [[elemV "A"], [elemV "B"]]
    (by decide) (by decide)

end IFunny
